import Mathlib

/-!
# stoke_debug_search: the mutate / undo driver

Shallow embedding of `src/tools/stoke_debug_search.cc` (the `main` function and its
command-line options) together with a model of the `Transforms` engine it drives.
The engine (`src/search/transforms.h`) and the ISA library lie outside that file;
they are modelled from the specification and marked as such. The engine works on the
graph in place: each write is a new value of the code, passed on explicitly.
-/

namespace Stoke

/-! ## Data model -/

abbrev Reg := Nat
abbrev Flag := Nat
abbrev Label := Nat
abbrev RegSet := List Reg
abbrev FlagSet := List Flag

/-- Modelled from the spec: the four operand kinds of the data model
("register, memory reference, immediate, or label"). -/
inductive OperandKind where
  | reg
  | mem
  | imm
  | label
  deriving DecidableEq, Repr

/-- Modelled from the spec: a memory reference, that is an addressing pattern: base
register, index register and displacement. -/
structure Mem where
  base : Option Reg
  index : Option Reg
  disp : Nat
  deriving DecidableEq, Repr

/-- Modelled from the spec: a typed operand. -/
inductive Operand where
  | reg (r : Reg)
  | mem (m : Mem)
  | imm (v : Nat)
  | label (l : Label)
  deriving DecidableEq, Repr

/-- Modelled from the spec: the kind of a typed operand. -/
def Operand.kind : Operand → OperandKind
  | Operand.reg _ => OperandKind.reg
  | Operand.mem _ => OperandKind.mem
  | Operand.imm _ => OperandKind.imm
  | Operand.label _ => OperandKind.label

/-- Modelled from the spec: the operand names the register: it is that register, or a
memory reference with that register as base or index. -/
def Operand.names : Operand → Reg → Bool
  | Operand.reg r0, r => decide (r0 = r)
  | Operand.mem m, r => decide (m.base = some r) || decide (m.index = some r)
  | Operand.imm _, _ => false
  | Operand.label _, _ => false

/-- Modelled from the spec: an entry of the opcode catalogue, carrying what pool
construction looks at: required CPU flags, memory read / write requirement, call
semantics and the operand-type signature. -/
structure Opcode where
  mnemonic : String
  required_flags : FlagSet
  reads_mem : Bool
  writes_mem : Bool
  is_call : Bool
  signature : List OperandKind
  deriving DecidableEq, Repr

/-- Modelled from the spec: "an opcode plus an ordered list of typed operands". -/
structure Instruction where
  opcode : Opcode
  operands : List Operand
  deriving DecidableEq, Repr

abbrev Code := List Instruction

/-- The translation unit read by `FileArg<TUnit, ...>`: a name and its code. -/
structure TUnit where
  name : String
  code : Code
  deriving DecidableEq, Repr

/-- The candidate graph as the driver builds it: `Cfg cfg(code, def_ins, live_outs)`;
`get_code()` is the field `code`. -/
structure Cfg where
  code : Code
  def_ins : RegSet
  live_outs : RegSet
  deriving DecidableEq, Repr

/-- Modelled from the spec: the closed enumeration of move families of `src/args/move.h`
(`instruction` is `Move::INSTRUCTION`, the single-instruction replace). -/
inductive Move where
  | instruction
  | opcode
  | operand
  | insert
  | delete
  | swap
  deriving DecidableEq, Repr

/-- Modelled from the spec: the no-op synthesised with weight `nop_percent`; it has no
flag, memory or call requirement and no operand. -/
def NOP : Opcode :=
  ⟨"nop", [], false, false, false, []⟩

/-- Modelled from the spec: the external collaborators of the engine and the driver:
the ISA definition (opcode catalogue, architectural registers, base immediates, the
`RET` opcode, the Linux callee-saved set), the implementer-fixed rule saying which
positions are eligible for a move family, and the renderer of a code sequence.
`wild_label` is the value line 122 reads from an auxiliary function that has no entry
label (the source reads `code[0]` and operand 0 without a test). -/
structure Env where
  catalogue : List Opcode
  registers : List Reg
  base_immediates : List Nat
  ret : Opcode
  linux_callee_save : RegSet
  eligible : Move → Code → Nat → Bool
  render : Code → String
  wild_label : TUnit → Label

/-! ## The random stream: `std::default_random_engine` (`minstd_rand0`) -/

def minstd_modulus : Nat := 2147483647

def minstd_multiplier : Nat := 16807

/-- Seeding of `linear_congruential_engine<uint_fast32_t, 16807, 0, 2147483647>`:
the state is `s mod m`, or 1 when that is 0 (the increment is 0). -/
def minstd_seed (s : Nat) : Nat :=
  if s % minstd_modulus = 0 then 1 else s % minstd_modulus

/-- One step of the engine: the new state, which is also the value returned. -/
def minstd_next (x : Nat) : Nat :=
  (minstd_multiplier * x) % minstd_modulus

/-- Conversion of the signed 64-bit time count to `result_type` (unsigned 64-bit). -/
def to_result_type (time : Int) : Nat :=
  (time % (2 ^ 64 : Int)).toNat

/-- Lines 107-109: `default_random_engine gen(time); seed.value() = gen();`. -/
def time_seed (time : Int) : Nat :=
  minstd_next (minstd_seed (to_result_type time))

/-! ## The engine, from the specification -/

/-- Modelled from the spec: the Undo Token, "the minimal saved diff (position, prior
opcode, prior operand list, or prior pair of positions for a swap)". -/
inductive UndoToken where
  | restore (pos : Nat) (opcode : Opcode) (operands : List Operand)
  | remove (pos : Nat)
  | reinsert (pos : Nat) (opcode : Opcode) (operands : List Operand)
  | unswap (i j : Nat)
  deriving DecidableEq, Repr

/-- Modelled from the spec: the edit picked by the Move Selector: a target location
and a replacement value. -/
inductive Edit where
  | replace_instr (pos : Nat) (instr : Instruction)
  | replace_opcode (pos : Nat) (opc : Opcode)
  | replace_operand (pos : Nat) (idx : Nat) (o : Operand)
  | insert (pos : Nat) (instr : Instruction)
  | delete (pos : Nat)
  | swap (i j : Nat)
  deriving DecidableEq, Repr

/-- Modelled from the spec: the opcodes an edit brings into the code (the replacement
value of an opcode or instruction edit). -/
def Edit.opcodes : Edit → List Opcode
  | Edit.replace_instr _ i => [i.opcode]
  | Edit.replace_opcode _ o => [o]
  | Edit.replace_operand _ _ _ => []
  | Edit.insert _ i => [i.opcode]
  | Edit.delete _ => []
  | Edit.swap _ _ => []

/-- Modelled from the spec: the operands an edit brings into the code (the replacement
value of an operand or instruction edit). -/
def Edit.operands : Edit → List Operand
  | Edit.replace_instr _ i => i.operands
  | Edit.replace_opcode _ _ => []
  | Edit.replace_operand _ _ o => [o]
  | Edit.insert _ i => i.operands
  | Edit.delete _ => []
  | Edit.swap _ _ => []

/-- Modelled from the spec: the state of the Transform Engine (`Transforms` in
`src/search/transforms.h`): the RNG stream, the four pools, the no-op weight and the
Undo Token with the move family that produced it. -/
structure Transforms where
  gen : Nat
  opcode_pool : List Opcode
  nop_percent : Nat
  reg_pool : List Reg
  mem_pool : List Mem
  imm_pool : List Nat
  label_pool : List Label
  token : Option (Move × UndoToken)
  deriving DecidableEq, Repr

/-- Modelled from the spec: "idempotent set insertion". -/
def set_insert (v : Nat) (pool : List Nat) : List Nat :=
  if v ∈ pool then pool else pool ++ [v]

/-- Modelled from the spec: a freshly constructed engine: default-seeded stream, the
base immediates, nothing else in the pools and no pending move. -/
def Transforms.init (env : Env) : Transforms :=
  { gen := minstd_seed 1
    opcode_pool := []
    nop_percent := 0
    reg_pool := []
    mem_pool := []
    imm_pool := env.base_immediates
    label_pool := []
    token := none }

/-- Modelled from the spec: `setSeed(seed)` "replaces RNG stream; always succeeds". -/
def Transforms.set_seed (t : Transforms) (seed : Nat) : Transforms :=
  { t with gen := minstd_seed seed }

/-- Modelled from the spec: the gate of `buildOpcodePool`: required flags contained in
`flags`, memory read / write and call semantics only when enabled. -/
def admissible (flags : FlagSet) (mem_read mem_write propose_call : Bool) (o : Opcode) : Bool :=
  o.required_flags.all (fun f => decide (f ∈ flags))
    && (!o.reads_mem || mem_read)
    && (!o.writes_mem || mem_write)
    && (!o.is_call || propose_call)

/-- Modelled from the spec: `buildOpcodePool(flags, nopPercent, memRead, memWrite,
proposeCall)`. -/
def Transforms.set_opcode_pool (env : Env) (t : Transforms) (flags : FlagSet)
    (nop_percent : Nat) (mem_read mem_write propose_call : Bool) : Transforms :=
  { t with
    opcode_pool := env.catalogue.filter (admissible flags mem_read mem_write propose_call)
    nop_percent := nop_percent }

/-- Modelled from the spec: set insertion of an addressing pattern. -/
def mem_insert (m : Mem) (pool : List Mem) : List Mem :=
  if m ∈ pool then pool else pool ++ [m]

/-- Modelled from the spec: the addressing patterns among an operand list, added to
those already collected. -/
def operand_templates (acc : List Mem) (operands : List Operand) : List Mem :=
  operands.foldl
    (fun acc o =>
      match o with
      | Operand.mem m => mem_insert m acc
      | _ => acc)
    acc

/-- Modelled from the spec: the "addressing patterns observed in code". -/
def mem_templates (code : Code) : List Mem :=
  code.foldl (fun acc i => operand_templates acc i.operands) []

/-- Modelled from the spec: `buildOperandPool(code, preserveRegs)`: "registers =
architectural register set minus preserveRegs; memory templates = addressing patterns
observed in code". -/
def Transforms.set_operand_pool (env : Env) (t : Transforms) (code : Code)
    (preserve_regs : RegSet) : Transforms :=
  { t with
    reg_pool := env.registers.filter (fun r => decide (r ∉ preserve_regs))
    mem_pool := mem_templates code }

/-- Modelled from the spec: `insertImmediate(v)`. -/
def Transforms.insert_immediate (t : Transforms) (v : Nat) : Transforms :=
  { t with imm_pool := set_insert v t.imm_pool }

/-- Modelled from the spec: `insertLabel(l)`. -/
def Transforms.insert_label (t : Transforms) (l : Label) : Transforms :=
  { t with label_pool := set_insert l t.label_pool }

/-- Modelled from the spec: uniform draw from a pool with the random value `g`; nothing
from an empty pool. -/
def pick {α : Type} (pool : List α) (g : Nat) : Option α :=
  pool.get? (g % pool.length)

/-- Modelled from the spec: draw of one operand of the given kind from the pool for that
kind. -/
def draw_operand (t : Transforms) (k : OperandKind) (g : Nat) : Option Operand :=
  match k with
  | OperandKind.reg => (pick t.reg_pool g).map Operand.reg
  | OperandKind.mem => (pick t.mem_pool g).map Operand.mem
  | OperandKind.imm => (pick t.imm_pool g).map Operand.imm
  | OperandKind.label => (pick t.label_pool g).map Operand.label

/-- Modelled from the spec: draw of an operand list for an operand-type signature, one
stream value per operand; nothing when a needed pool is empty. -/
def draw_operands (t : Transforms) : List OperandKind → Nat → Option (List Operand) × Nat
  | [], g => (some [], g)
  | k :: ks, g =>
    let g1 := minstd_next g
    match draw_operand t k g1 with
    | none => (none, g1)
    | some o =>
      match draw_operands t ks g1 with
      | (none, g2) => (none, g2)
      | (some os, g2) => (some (o :: os), g2)

/-- Modelled from the spec: draw of an opcode: the no-op with weight `nop_percent`,
otherwise an opcode of the pool; nothing from an empty pool. -/
def draw_opcode (t : Transforms) (g : Nat) : Option Opcode × Nat :=
  let g1 := minstd_next g
  if g1 % 100 < t.nop_percent then (some NOP, g1)
  else
    let g2 := minstd_next g1
    (pick t.opcode_pool g2, g2)

/-- Modelled from the spec: draw of a whole instruction: an opcode, then operands for
its signature. -/
def draw_instruction (t : Transforms) (g : Nat) : Option Instruction × Nat :=
  match draw_opcode t g with
  | (none, g2) => (none, g2)
  | (some opc, g2) =>
    match draw_operands t opc.signature g2 with
    | (none, g3) => (none, g3)
    | (some os, g3) => (some ⟨opc, os⟩, g3)

/-- Modelled from the spec: step 1 of `modify`, the eligible target positions of a move
family (insertion points for `insert`, instruction indices otherwise). -/
def positions (env : Env) (code : Code) (m : Move) : List Nat :=
  (List.range (if m = Move.insert then code.length + 1 else code.length)).filter
    (env.eligible m code)

/-- Modelled from the spec: the Move Selector, steps 1-4 of `modify`: pick a position
among the eligible ones and a replacement from the relevant pool; `none` when there is
no eligible position or no legal substitution. The second component is the stream
state after the draws. For the `instruction` and `insert` families the engine makes
these draws while it writes (`attempt`); `select` says what they amount to. -/
def select (env : Env) (t : Transforms) (code : Code) (m : Move) : Option Edit × Nat :=
  let g1 := minstd_next t.gen
  match pick (positions env code m) g1 with
  | none => (none, g1)
  | some pos =>
    match m with
    | Move.instruction =>
      match draw_instruction t g1 with
      | (none, g) => (none, g)
      | (some i, g) => (some (Edit.replace_instr pos i), g)
    | Move.opcode =>
      match code.get? pos with
      | none => (none, g1)
      | some cur =>
        let g2 := minstd_next g1
        match pick (t.opcode_pool.filter
            (fun o => decide (o.signature = cur.opcode.signature ∧ o ≠ cur.opcode))) g2 with
        | none => (none, g2)
        | some o => (some (Edit.replace_opcode pos o), g2)
    | Move.operand =>
      match code.get? pos with
      | none => (none, g1)
      | some cur =>
        let g2 := minstd_next g1
        let idx := g2 % cur.operands.length
        match cur.operands.get? idx with
        | none => (none, g2)
        | some old =>
          let g3 := minstd_next g2
          match draw_operand t old.kind g3 with
          | none => (none, g3)
          | some o => (some (Edit.replace_operand pos idx o), g3)
    | Move.insert =>
      match draw_instruction t g1 with
      | (none, g) => (none, g)
      | (some i, g) => (some (Edit.insert pos i), g)
    | Move.delete => (some (Edit.delete pos), g1)
    | Move.swap =>
      let g2 := minstd_next g1
      match pick (positions env code m) g2 with
      | none => (none, g2)
      | some j => if j = pos then (none, g2) else (some (Edit.swap pos j), g2)

/-- Modelled from the spec: step 5 of `modify`: the whole structural change together
with the Undo Token capturing what changed, or nothing. -/
def apply_edit (code : Code) : Edit → Option (Code × UndoToken)
  | Edit.replace_instr pos i =>
    (code.get? pos).map
      (fun old => (code.set pos i, UndoToken.restore pos old.opcode old.operands))
  | Edit.replace_opcode pos o =>
    (code.get? pos).map
      (fun old => (code.set pos ⟨o, old.operands⟩, UndoToken.restore pos old.opcode old.operands))
  | Edit.replace_operand pos idx x =>
    (code.get? pos).map
      (fun old =>
        (code.set pos ⟨old.opcode, old.operands.set idx x⟩,
          UndoToken.restore pos old.opcode old.operands))
  | Edit.insert pos i =>
    if pos ≤ code.length then some (code.insertIdx pos i, UndoToken.remove pos) else none
  | Edit.delete pos =>
    (code.get? pos).map
      (fun old => (code.eraseIdx pos, UndoToken.reinsert pos old.opcode old.operands))
  | Edit.swap i j =>
    match code.get? i, code.get? j with
    | some a, some b => some ((code.set i b).set j a, UndoToken.unswap i j)
    | _, _ => none

/-- Modelled from the spec: reversal of "the fields stored in the Undo Token". -/
def invert (code : Code) : UndoToken → Code
  | UndoToken.restore pos opc ops => code.set pos ⟨opc, ops⟩
  | UndoToken.remove pos => code.eraseIdx pos
  | UndoToken.reinsert pos opc ops => code.insertIdx pos ⟨opc, ops⟩
  | UndoToken.unswap i j =>
    match code.get? i, code.get? j with
    | some a, some b => (code.set i b).set j a
    | _, _ => code

/-- Modelled from the spec: in-place write appending an operand to the instruction at
a position ("mutable in place"). -/
def append_operand (code : Code) (pos : Nat) (o : Operand) : Code :=
  match code.get? pos with
  | none => code
  | some i => code.set pos ⟨i.opcode, i.operands ++ [o]⟩

/-- Modelled from the spec: the operands of the instruction at a position are filled in
place, one draw and one write per operand of the signature; the fill stops at the
first operand kind whose pool is empty ("an empty pool for the needed operand kind
yields an ordinary failed result"), leaving the operands written so far. Result:
whether it completed, the code as written, the stream state. -/
def fill_operands (t : Transforms) (pos : Nat) : List OperandKind → Code → Nat → Bool × Code × Nat
  | [], code, g => (true, code, g)
  | k :: ks, code, g =>
    let g1 := minstd_next g
    match draw_operand t k g1 with
    | none => (false, code, g1)
    | some o => fill_operands t pos ks (append_operand code pos o) g1

/-- Modelled from the spec: how an in-place attempt at a move ends: nothing written;
given up after some writes, with the token of what was written; or completed, with
its Undo Token. The last component is the stream state. -/
inductive Attempt where
  | untouched (g : Nat)
  | abandoned (code : Code) (tok : UndoToken) (g : Nat)
  | done (code : Code) (tok : UndoToken) (g : Nat)
  deriving DecidableEq, Repr

/-- Modelled from the spec: after the opcode has been written at `pos` (code `written`),
fill its operands in place. -/
def fill_written (t : Transforms) (written : Code) (pos : Nat) (tok : UndoToken) (opc : Opcode)
    (g : Nat) : Attempt :=
  match fill_operands t pos opc.signature written g with
  | (true, code, g2) => Attempt.done code tok g2
  | (false, code, g2) => Attempt.abandoned code tok g2

/-- Modelled from the spec: the in-place attempt at one move (steps 1-5 of `modify`
without the clean-up). Instruction replacement and insertion write the drawn opcode
first and then fill the operands in place; the other families draw first and make
their single structural change with `apply_edit`. -/
def attempt (env : Env) (t : Transforms) (code : Code) (m : Move) : Attempt :=
  match m with
  | Move.instruction =>
    let g1 := minstd_next t.gen
    match pick (positions env code m) g1 with
    | none => Attempt.untouched g1
    | some pos =>
      match draw_opcode t g1 with
      | (none, g) => Attempt.untouched g
      | (some opc, g) =>
        match code.get? pos with
        | none => Attempt.untouched g
        | some old =>
          fill_written t (code.set pos ⟨opc, []⟩) pos
            (UndoToken.restore pos old.opcode old.operands) opc g
  | Move.insert =>
    let g1 := minstd_next t.gen
    match pick (positions env code m) g1 with
    | none => Attempt.untouched g1
    | some pos =>
      match draw_opcode t g1 with
      | (none, g) => Attempt.untouched g
      | (some opc, g) =>
        if pos ≤ code.length then
          fill_written t (code.insertIdx pos ⟨opc, []⟩) pos (UndoToken.remove pos) opc g
        else Attempt.untouched g
  | _ =>
    match select env t code m with
    | (none, g) => Attempt.untouched g
    | (some e, g) =>
      match apply_edit code e with
      | none => Attempt.untouched g
      | some (code2, tok) => Attempt.done code2 tok g

/-- Modelled from the spec: `modify(graph, moveType)` of `Transforms`: result, engine
after the call, graph after the call. A completed attempt is a success and leaves its
Undo Token; an attempt given up after some writes is rolled back with the token of
what it wrote, and is a failure like one that wrote nothing ("all-or-nothing"). -/
def Transforms.modify (env : Env) (t : Transforms) (cfg : Cfg) (m : Move) :
    Bool × Transforms × Cfg :=
  match attempt env t cfg.code m with
  | Attempt.untouched g => (false, { t with gen := g }, cfg)
  | Attempt.abandoned code tok g =>
    (false, { t with gen := g }, { cfg with code := invert code tok })
  | Attempt.done code tok g =>
    (true, { t with gen := g, token := some (m, tok) }, { cfg with code := code })

/-- Modelled from the spec: `undo(graph, moveType)` of `Transforms`; `none` is the fatal
caller error (no pending move, or a mismatched move family). A successful undo
consumes the token. -/
def Transforms.undo (t : Transforms) (cfg : Cfg) (m : Move) : Option (Transforms × Cfg) :=
  match t.token with
  | none => none
  | some (m0, tok) =>
    if m0 = m then some ({ t with token := none }, { cfg with code := invert cfg.code tok })
    else none

/-! ## The driver: `src/tools/stoke_debug_search.cc` -/

/-- The command line after parsing: for each `ValueArg` / `FileArg` / `FolderArg` the
value supplied, if any; for each `FlagArg` whether it was given. -/
structure Args where
  target : Option TUnit
  functions : Option (List TUnit)
  cpu_flags : Option FlagSet
  nop_percent : Option Nat
  mem_read : Bool
  mem_write : Bool
  propose_call : Bool
  callee_save : Bool
  preserve_regs : Option RegSet
  move : Option Move
  immediates : Option (List Nat)
  seed : Option Nat

/-- Lines 43-46: `target`, default `{"anon", {{RET}}}`. -/
def Args.target_value (env : Env) (args : Args) : TUnit :=
  args.target.getD ⟨"anon", [⟨env.ret, []⟩]⟩

/-- Lines 48-51: `functions`, default `{}`. -/
def Args.functions_value (args : Args) : List TUnit :=
  args.functions.getD []

/-- Lines 55-58: `cpu_flags`, default `FlagSet::empty()`. -/
def Args.cpu_flags_value (args : Args) : FlagSet :=
  args.cpu_flags.getD []

/-- Lines 60-63: `nop_percent`, default 0. -/
def Args.nop_percent_value (args : Args) : Nat :=
  args.nop_percent.getD 0

/-- Lines 78-81: `preserve_regs`, default `RegSet::linux_callee_save()`. -/
def Args.preserve_regs_value (env : Env) (args : Args) : RegSet :=
  args.preserve_regs.getD env.linux_callee_save

/-- Lines 83-86: `move`, default `Move::INSTRUCTION`. -/
def Args.move_value (args : Args) : Move :=
  args.move.getD Move.instruction

/-- Lines 88-90: `immediates`, no default given: the empty vector. -/
def Args.immediates_value (args : Args) : List Nat :=
  args.immediates.getD []

/-- Lines 94-97: `seed`, default 0. -/
def Args.seed_value (args : Args) : Nat :=
  args.seed.getD 0

/-- Lines 102-104: `callee_save` overrides `preserve_regs` with the empty set. -/
def preserve_regs_after_override (env : Env) (args : Args) : RegSet :=
  if args.callee_save then [] else args.preserve_regs_value env

/-- Lines 106-110: a zero seed is replaced by the first output of a
`default_random_engine` seeded with the time count. -/
def seed_after_override (args : Args) (time : Int) : Nat :=
  if args.seed_value = 0 then time_seed time else args.seed_value

/-- A call made by the driver on its `Transforms` object, with the arguments passed. -/
inductive Call where
  | set_seed (seed : Nat)
  | set_opcode_pool (flags : FlagSet) (nop_percent : Nat) (mem_read mem_write propose_call : Bool)
  | set_operand_pool (code : Code) (preserve_regs : RegSet)
  | insert_immediate (imm : Nat)
  | insert_label (l : Label)
  | modify (cfg : Cfg) (move : Move)
  | undo (cfg : Cfg) (move : Move)
  deriving DecidableEq, Repr

/-- The driver's `Transforms` object together with the calls made on it so far. -/
structure Traced where
  engine : Transforms
  trace : List Call
  deriving DecidableEq, Repr

def Traced.set_seed (tr : Traced) (seed : Nat) : Traced :=
  ⟨tr.engine.set_seed seed, tr.trace ++ [Call.set_seed seed]⟩

def Traced.set_opcode_pool (env : Env) (tr : Traced) (flags : FlagSet) (nop_percent : Nat)
    (mem_read mem_write propose_call : Bool) : Traced :=
  ⟨tr.engine.set_opcode_pool env flags nop_percent mem_read mem_write propose_call,
    tr.trace ++ [Call.set_opcode_pool flags nop_percent mem_read mem_write propose_call]⟩

def Traced.set_operand_pool (env : Env) (tr : Traced) (code : Code) (preserve_regs : RegSet) :
    Traced :=
  ⟨tr.engine.set_operand_pool env code preserve_regs,
    tr.trace ++ [Call.set_operand_pool code preserve_regs]⟩

def Traced.insert_immediate (tr : Traced) (imm : Nat) : Traced :=
  ⟨tr.engine.insert_immediate imm, tr.trace ++ [Call.insert_immediate imm]⟩

def Traced.insert_label (tr : Traced) (l : Label) : Traced :=
  ⟨tr.engine.insert_label l, tr.trace ++ [Call.insert_label l]⟩

def Traced.modify (env : Env) (tr : Traced) (cfg : Cfg) (m : Move) : Bool × Traced × Cfg :=
  let r := tr.engine.modify env cfg m
  (r.1, ⟨r.2.1, tr.trace ++ [Call.modify cfg m]⟩, r.2.2)

def Traced.undo (tr : Traced) (cfg : Cfg) (m : Move) : Option (Traced × Cfg) :=
  (tr.engine.undo cfg m).map (fun r => (⟨r.1, tr.trace ++ [Call.undo cfg m]⟩, r.2))

/-- The entry label of an auxiliary function: operand 0 of its first instruction, when
the code is non-empty and that operand is a label. -/
def entry_label (fxn : TUnit) : Option Label :=
  match fxn.code with
  | [] => none
  | i :: _ =>
    match i.operands with
    | Operand.label l :: _ => some l
    | _ => none

/-- Lines 118-120: the loop over `imms`. -/
def insert_immediates (tr : Traced) (imms : List Nat) : Traced :=
  imms.foldl Traced.insert_immediate tr

/-- Line 122: `fxn.code[0].get_operand<Label>(0)`, read without any test: the entry
label when there is one, else whatever the read yields (`wild_label`). -/
def read_entry_label (env : Env) (fxn : TUnit) : Label :=
  match entry_label fxn with
  | some l => l
  | none => env.wild_label fxn

/-- Lines 121-123: the loop over `aux_fxns`, one `insert_label` call per function. -/
def insert_labels (env : Env) (tr : Traced) (fxns : List TUnit) : Traced :=
  fxns.foldl (fun tr fxn => tr.insert_label (read_entry_label env fxn)) tr

/-- Lines 114-123: construction and configuration of `transforms`. -/
def setup (env : Env) (args : Args) (time : Int) : Traced :=
  let tr0 : Traced := ⟨Transforms.init env, []⟩
  let tr1 :=
    ((tr0.set_seed (seed_after_override args time)).set_opcode_pool env args.cpu_flags_value
        args.nop_percent_value args.mem_read args.mem_write args.propose_call).set_operand_pool
      env (args.target_value env).code (preserve_regs_after_override env args)
  insert_labels env (insert_immediates tr1 args.immediates_value) args.functions_value

/-- What one run of the driver shows: the result of `modify`, the three code sequences
printed (lines 130, 137, 146), the engine right after `modify` and at the end, and
the calls made on the engine. -/
structure Run where
  res : Bool
  original : Code
  after_transform : Code
  after_undo : Code
  engine_after_modify : Transforms
  engine_final : Transforms
  trace : List Call
  deriving DecidableEq, Repr

/-- Lines 128-147: print, `modify`, print, `undo` when `res`, print. The run stops only
if `undo` meets its fatal caller error. -/
def transform_and_undo (env : Env) (tr : Traced) (cfg : Cfg) (m : Move) :
    Except (List Call) Run :=
  let original := cfg.code
  let r := tr.modify env cfg m
  let after_transform := r.2.2.code
  if r.1 then
    match r.2.1.undo r.2.2 m with
    | none => Except.error r.2.1.trace
    | some (tr2, cfg2) =>
      Except.ok ⟨r.1, original, after_transform, cfg2.code, r.2.1.engine, tr2.engine, tr2.trace⟩
  else
    Except.ok ⟨r.1, original, after_transform, r.2.2.code, r.2.1.engine, r.2.1.engine, r.2.1.trace⟩

/-- The function `main` (lines 99-152): a completed run, or the calls made before a
fatal `undo` stopped it. -/
def main (env : Env) (args : Args) (time : Int) : Except (List Call) Run :=
  transform_and_undo env (setup env args time) ⟨(args.target_value env).code, [], []⟩
    args.move_value

/-- The calls the driver made on the engine, whether or not the run completed. -/
def calls_made : Except (List Call) Run → List Call
  | Except.error calls => calls
  | Except.ok run => run.trace

/-- The text on standard output: the three headed sections (lines 128-146). -/
def output (env : Env) (run : Run) : List String :=
  [ "Original Code:", env.render run.original,
    (if run.res then "After Successful Transform:" else "After Failed Transform:"),
    env.render run.after_transform,
    "After Undo:", env.render run.after_undo ]

/-- Calls that configure the engine (seed and the two pool constructions). -/
def Call.is_config : Call → Bool
  | Call.set_seed _ => true
  | Call.set_opcode_pool _ _ _ _ _ => true
  | Call.set_operand_pool _ _ => true
  | _ => false

/-- Calls that insert into a pool. -/
def Call.is_insertion : Call → Bool
  | Call.insert_immediate _ => true
  | Call.insert_label _ => true
  | _ => false

/-- Pool insertion of a whole list, in order. -/
def insert_all (pool : List Nat) (vs : List Nat) : List Nat :=
  vs.foldl (fun p v => set_insert v p) pool

/-- An operand that is a member of the engine's pool for its kind. -/
def from_pools (t : Transforms) : Operand → Prop
  | Operand.reg r => r ∈ t.reg_pool
  | Operand.mem m => m ∈ t.mem_pool
  | Operand.imm v => v ∈ t.imm_pool
  | Operand.label l => l ∈ t.label_pool

def sample_ret : Opcode :=
  ⟨"retq", [], false, false, false, []⟩

def sample_mov : Opcode :=
  ⟨"movq", [], false, false, false, [OperandKind.reg, OperandKind.reg]⟩

def sample_add : Opcode :=
  ⟨"addq", [], false, false, false, [OperandKind.reg, OperandKind.reg]⟩

def sample_popcnt : Opcode :=
  ⟨"popcntq", [7], false, false, false, [OperandKind.reg, OperandKind.reg]⟩

def sample_load : Opcode :=
  ⟨"movq", [], true, false, false, [OperandKind.mem, OperandKind.reg]⟩

def sample_call : Opcode :=
  ⟨"callq", [], false, false, true, [OperandKind.label]⟩

def sample_env : Env :=
  { catalogue := [sample_mov, sample_add, sample_popcnt, sample_load, sample_call]
    registers := List.range 16
    base_immediates := [0, 1]
    ret := sample_ret
    linux_callee_save := [3, 4, 5, 12, 13, 14, 15]
    eligible := fun _ _ _ => true
    render := fun code => String.intercalate "; " (code.map (fun i => i.opcode.mnemonic))
    wild_label := fun _ => 0 }

/-- An ISA with an empty catalogue: no substitution is ever available. -/
def bare_env : Env :=
  { sample_env with catalogue := [] }

def sample_code : Code :=
  [⟨sample_mov, [Operand.reg 0, Operand.reg 3]⟩, ⟨sample_ret, []⟩]

/-- Two loads through the stack pointer (register 4). -/
def stack_code : Code :=
  [⟨sample_load, [Operand.mem ⟨some 4, none, 8⟩, Operand.reg 0]⟩,
    ⟨sample_load, [Operand.mem ⟨some 4, none, 16⟩, Operand.reg 1]⟩]

def sample_fxn (l : Label) : TUnit :=
  ⟨"aux", [⟨sample_ret, [Operand.label l]⟩, ⟨sample_ret, []⟩]⟩

/-- The command line `--seed 1 --target <sample_code> --callee_save`. -/
def sample_args : Args :=
  { target := some ⟨"target", sample_code⟩
    functions := none
    cpu_flags := none
    nop_percent := none
    mem_read := false
    mem_write := false
    propose_call := false
    callee_save := true
    preserve_regs := none
    move := none
    immediates := none
    seed := some 1 }

/-- The command line `--seed 1` alone. -/
def default_args : Args :=
  { sample_args with target := none, callee_save := false }

/-- A command line with extra immediates and two auxiliary functions. -/
def pool_args : Args :=
  { sample_args with
    immediates := some [5, 7, 5]
    functions := some [sample_fxn 11, sample_fxn 12, sample_fxn 11] }

/-- A command line with an auxiliary function that has no code. -/
def empty_fxn_args : Args :=
  { sample_args with functions := some [⟨"empty", []⟩] }

/-- The command line `--seed 2 --target <stack_code> --mem_read --preserve_regs { 4 }
--move operand`. -/
def stack_args : Args :=
  { target := some ⟨"target", stack_code⟩
    functions := none
    cpu_flags := none
    nop_percent := none
    mem_read := true
    mem_write := false
    propose_call := false
    callee_save := false
    preserve_regs := some [4]
    move := some Move.operand
    immediates := none
    seed := some 2 }

/-- The engine configured as by `--seed 1` with every other option at its default,
for the target `sample_code`. -/
def sample_engine : Transforms :=
  ((((Transforms.init sample_env).set_seed 1).set_opcode_pool sample_env [] 0 false false
    false).set_operand_pool sample_env sample_code [3, 4, 5, 12, 13, 14, 15])

/-- The engine configured with seed `s`, memory reads allowed and the stack pointer
preserved, for the target `stack_code`. -/
def stack_engine (s : Nat) : Transforms :=
  ((((Transforms.init sample_env).set_seed s).set_opcode_pool sample_env [] 0 true false
    false).set_operand_pool sample_env stack_code [4])

/-! ## Lists: writing back what was read -/

theorem set_get_self {α : Type} (l : List α) (n : Nat) (a : α) (h : l.get? n = some a) :
    l.set n a = l := by
  induction l generalizing n with
  | nil => simp
  | cons x xs ih =>
    cases n with
    | zero => simp at h; simp [h]
    | succ k => simp at h; simp [ih k (by simpa using h)]

theorem insertIdx_eraseIdx_get {α : Type} (l : List α) (n : Nat) (a : α)
    (h : l.get? n = some a) : (l.eraseIdx n).insertIdx n a = l := by
  induction l generalizing n with
  | nil => simp at h
  | cons x xs ih =>
    cases n with
    | zero => simp at h; simp [h]
    | succ k => simp at h; simp [ih k (by simpa using h)]

theorem get_lt_length {α : Type} (l : List α) (n : Nat) (a : α) (h : l.get? n = some a) :
    n < l.length := by
  by_contra hc
  simp only [List.get?_eq_getElem?] at h
  rw [List.getElem?_eq_none (by omega)] at h
  exact Option.noConfusion h

theorem swap_swap {α : Type} (l : List α) (i j : Nat) (a b : α)
    (hi : l.get? i = some a) (hj : l.get? j = some b) :
    (((l.set i b).set j a).set i a).set j b = l := by
  have hil := get_lt_length l i a hi
  have hjl := get_lt_length l j b hj
  apply List.ext_getElem?
  intro k
  simp only [List.get?_eq_getElem?] at hi hj
  simp only [List.getElem?_set, List.length_set]
  by_cases h1 : j = k
  · subst h1; simp [hjl, hj]
  · by_cases h2 : i = k
    · subst h2; simp [h1, hil, hi]
    · simp [h1, h2]

theorem swapped_get {α : Type} (l : List α) (i j : Nat) (a b : α)
    (hi : l.get? i = some a) (hj : l.get? j = some b) :
    ((l.set i b).set j a).get? i = some b ∧ ((l.set i b).set j a).get? j = some a := by
  have hil := get_lt_length l i a hi
  have hjl := get_lt_length l j b hj
  simp only [List.get?_eq_getElem?] at hi hj ⊢
  simp only [List.getElem?_set, List.length_set]
  by_cases h : j = i
  · subst h
    rw [hi] at hj
    simp [hjl, Option.some.inj hj]
  · simp [h, hil, hjl]

/-! ## The engine: apply and invert -/

theorem apply_invert (code code2 : Code) (e : Edit) (tok : UndoToken)
    (h : apply_edit code e = some (code2, tok)) : invert code2 tok = code := by
  cases e with
  | replace_instr pos i =>
    simp only [apply_edit, Option.map_eq_some'] at h
    obtain ⟨old, hold, heq⟩ := h
    simp only [Prod.mk.injEq] at heq
    obtain ⟨h1, h2⟩ := heq
    subst h1; subst h2
    simp only [invert, List.set_set]
    exact set_get_self code pos _ hold
  | replace_opcode pos o =>
    simp only [apply_edit, Option.map_eq_some'] at h
    obtain ⟨old, hold, heq⟩ := h
    simp only [Prod.mk.injEq] at heq
    obtain ⟨h1, h2⟩ := heq
    subst h1; subst h2
    simp only [invert, List.set_set]
    exact set_get_self code pos _ hold
  | replace_operand pos idx x =>
    simp only [apply_edit, Option.map_eq_some'] at h
    obtain ⟨old, hold, heq⟩ := h
    simp only [Prod.mk.injEq] at heq
    obtain ⟨h1, h2⟩ := heq
    subst h1; subst h2
    simp only [invert, List.set_set]
    exact set_get_self code pos _ hold
  | insert pos i =>
    simp only [apply_edit] at h
    split at h
    · simp only [Option.some.injEq, Prod.mk.injEq] at h
      obtain ⟨h1, h2⟩ := h
      subst h1; subst h2
      simp only [invert]
      exact List.eraseIdx_insertIdx pos code
    · exact Option.noConfusion h
  | delete pos =>
    simp only [apply_edit, Option.map_eq_some'] at h
    obtain ⟨old, hold, heq⟩ := h
    simp only [Prod.mk.injEq] at heq
    obtain ⟨h1, h2⟩ := heq
    subst h1; subst h2
    simp only [invert]
    exact insertIdx_eraseIdx_get code pos _ hold
  | swap i j =>
    simp only [apply_edit] at h
    split at h
    · rename_i a b ha hb
      simp only [Option.some.injEq, Prod.mk.injEq] at h
      obtain ⟨h1, h2⟩ := h
      subst h1; subst h2
      obtain ⟨g1, g2⟩ := swapped_get code i j a b ha hb
      simp only [invert, g1, g2]
      exact swap_swap code i j a b ha hb
    · exact Option.noConfusion h

theorem get_set_self {α : Type} (l : List α) (n : Nat) (a b : α) (h : l.get? n = some a) :
    (l.set n b).get? n = some b := by
  have hl := get_lt_length l n a h
  simp [List.getElem?_set, hl]

theorem eraseIdx_set_self {α : Type} (l : List α) (n : Nat) (a : α) :
    (l.set n a).eraseIdx n = l.eraseIdx n := by
  induction l generalizing n with
  | nil => simp
  | cons x xs ih =>
    cases n with
    | zero => simp
    | succ k => simp [ih k]

theorem set_insertIdx_self {α : Type} (l : List α) (n : Nat) (a b : α) (h : n ≤ l.length) :
    (l.insertIdx n a).set n b = l.insertIdx n b := by
  induction l generalizing n with
  | nil =>
    have : n = 0 := by simpa using h
    subst this
    simp
  | cons x xs ih =>
    cases n with
    | zero => simp
    | succ k =>
      have hk : k ≤ xs.length := by simpa using h
      simp [ih k hk]

theorem get_insertIdx_self {α : Type} (l : List α) (n : Nat) (a : α) (h : n ≤ l.length) :
    (l.insertIdx n a).get? n = some a := by
  induction l generalizing n with
  | nil =>
    have : n = 0 := by simpa using h
    subst this
    simp
  | cons x xs ih =>
    cases n with
    | zero => simp
    | succ k =>
      have hk : k ≤ xs.length := by simpa using h
      simpa using ih k hk

/-! ## The engine: filling operands in place -/

/-- Filling the operands of the instruction at `pos` either completes, with the operands
`draw_operands` yields, or stops having touched nothing but position `pos`. -/
theorem fill_operands_spec (t : Transforms) (pos : Nat) (ks : List OperandKind) (code : Code)
    (g : Nat) (opc : Opcode) (acc : List Operand)
    (h : code.get? pos = some ⟨opc, acc⟩) :
    (∃ os g2, draw_operands t ks g = (some os, g2) ∧
      fill_operands t pos ks code g = (true, code.set pos ⟨opc, acc ++ os⟩, g2)) ∨
    (∃ code2 g2, draw_operands t ks g = (none, g2) ∧
      fill_operands t pos ks code g = (false, code2, g2) ∧
      ∀ x, code2.set pos x = code.set pos x) := by
  induction ks generalizing code g acc with
  | nil =>
    left
    refine ⟨[], g, rfl, ?_⟩
    simp only [fill_operands, List.append_nil]
    rw [set_get_self code pos _ h]
  | cons k ks ih =>
    simp only [fill_operands, draw_operands]
    cases hd : draw_operand t k (minstd_next g) with
    | none =>
      right
      exact ⟨code, minstd_next g, rfl, rfl, fun _ => rfl⟩
    | some o =>
      simp only []
      have hw : append_operand code pos o = code.set pos ⟨opc, acc ++ [o]⟩ := by
        unfold append_operand
        rw [h]
      have hget : (append_operand code pos o).get? pos = some ⟨opc, acc ++ [o]⟩ := by
        rw [hw]
        exact get_set_self code pos _ _ h
      rcases ih (append_operand code pos o) (minstd_next g) (acc ++ [o]) hget with
        ⟨os, g2, hdr, hfill⟩ | ⟨code2, g2, hdr, hfill, hsame⟩
      · left
        refine ⟨o :: os, g2, by rw [hdr], ?_⟩
        rw [hfill, hw, List.set_set]
        simp
      · right
        refine ⟨code2, g2, by rw [hdr], hfill, ?_⟩
        intro x
        rw [hsame x, hw, List.set_set]

/-- How an attempt ends, against the selector and the single structural change: nothing
written; given up, and the token of what was written leads back to the code as it was;
or completed with the edit the selector describes. -/
theorem attempt_cases (env : Env) (t : Transforms) (code : Code) (m : Move) :
    (∃ g, attempt env t code m = Attempt.untouched g) ∨
    (∃ code2 tok g, attempt env t code m = Attempt.abandoned code2 tok g ∧
      invert code2 tok = code) ∨
    (∃ e code2 tok g, attempt env t code m = Attempt.done code2 tok g ∧
      select env t code m = (some e, g) ∧ apply_edit code e = some (code2, tok)) := by
  have generic : ∀ m2 : Move,
      (match select env t code m2 with
        | (none, g) => Attempt.untouched g
        | (some e, g) =>
          match apply_edit code e with
          | none => Attempt.untouched g
          | some (code2, tok) => Attempt.done code2 tok g) = attempt env t code m2 →
      ((∃ g, attempt env t code m2 = Attempt.untouched g) ∨
      (∃ code2 tok g, attempt env t code m2 = Attempt.abandoned code2 tok g ∧
        invert code2 tok = code) ∨
      (∃ e code2 tok g, attempt env t code m2 = Attempt.done code2 tok g ∧
        select env t code m2 = (some e, g) ∧ apply_edit code e = some (code2, tok))) := by
    intro m2 hm2
    rw [← hm2]
    rcases hs : select env t code m2 with ⟨oe, g⟩
    cases oe with
    | none => exact Or.inl ⟨g, rfl⟩
    | some e =>
      rcases ha : apply_edit code e with _ | ⟨code2, tok⟩
      · exact Or.inl ⟨g, by simp [ha]⟩
      · exact Or.inr (Or.inr ⟨e, code2, tok, g, by simp [ha], rfl, ha⟩)
  cases m with
  | opcode => exact generic Move.opcode rfl
  | operand => exact generic Move.operand rfl
  | delete => exact generic Move.delete rfl
  | swap => exact generic Move.swap rfl
  | instruction =>
    simp only [attempt, select, draw_instruction]
    cases hpos : pick (positions env code Move.instruction) (minstd_next t.gen) with
    | none => exact Or.inl ⟨_, rfl⟩
    | some pos =>
      simp only []
      rcases hopc : draw_opcode t (minstd_next t.gen) with ⟨oo, g⟩
      cases oo with
      | none => exact Or.inl ⟨_, rfl⟩
      | some opc =>
        simp only []
        cases hold : code.get? pos with
        | none => exact Or.inl ⟨_, rfl⟩
        | some old =>
          simp only []
          have hget : (code.set pos ⟨opc, []⟩).get? pos = some ⟨opc, []⟩ :=
            get_set_self code pos _ _ hold
          rcases fill_operands_spec t pos opc.signature _ g opc [] hget with
            ⟨os, g2, hdr, hfill⟩ | ⟨code2, g2, hdr, hfill, hsame⟩
          · right; right
            refine ⟨Edit.replace_instr pos ⟨opc, os⟩, code.set pos ⟨opc, os⟩,
              UndoToken.restore pos old.opcode old.operands, g2, ?_, ?_, ?_⟩
            · simp [fill_written, hfill, List.set_set]
            · simp [hdr]
            · simp only [apply_edit, hold, Option.map_some']
          · right; left
            refine ⟨code2, UndoToken.restore pos old.opcode old.operands, g2, ?_, ?_⟩
            · simp [fill_written, hfill]
            · simp only [invert]
              rw [hsame, List.set_set]
              exact set_get_self code pos _ hold
  | insert =>
    simp only [attempt, select, draw_instruction]
    cases hpos : pick (positions env code Move.insert) (minstd_next t.gen) with
    | none => exact Or.inl ⟨_, rfl⟩
    | some pos =>
      simp only []
      rcases hopc : draw_opcode t (minstd_next t.gen) with ⟨oo, g⟩
      cases oo with
      | none => exact Or.inl ⟨_, rfl⟩
      | some opc =>
        simp only []
        by_cases hle : pos ≤ code.length
        · simp only [hle, if_true]
          have hget : (code.insertIdx pos ⟨opc, []⟩).get? pos = some ⟨opc, []⟩ :=
            get_insertIdx_self code pos _ hle
          rcases fill_operands_spec t pos opc.signature _ g opc [] hget with
            ⟨os, g2, hdr, hfill⟩ | ⟨code2, g2, hdr, hfill, hsame⟩
          · right; right
            refine ⟨Edit.insert pos ⟨opc, os⟩, code.insertIdx pos ⟨opc, os⟩,
              UndoToken.remove pos, g2, ?_, ?_, ?_⟩
            · simp [fill_written, hfill, set_insertIdx_self code pos _ _ hle]
            · simp [hdr]
            · simp [apply_edit, hle]
          · right; left
            refine ⟨code2, UndoToken.remove pos, g2, ?_, ?_⟩
            · simp [fill_written, hfill]
            · simp only [invert]
              rw [← eraseIdx_set_self code2 pos ⟨NOP, []⟩, hsame, eraseIdx_set_self]
              exact List.eraseIdx_insertIdx pos code
        · simp only [hle, if_false]
          exact Or.inl ⟨_, rfl⟩

/-- The two ways a `modify` call can end. -/
theorem modify_cases (env : Env) (t : Transforms) (cfg : Cfg) (m : Move) :
    (∃ g, t.modify env cfg m = (false, { t with gen := g }, cfg)) ∨
    (∃ g e code tok, select env t cfg.code m = (some e, g) ∧
      apply_edit cfg.code e = some (code, tok) ∧
      t.modify env cfg m =
        (true, { t with gen := g, token := some (m, tok) }, { cfg with code := code })) := by
  unfold Transforms.modify
  rcases attempt_cases env t cfg.code m with ⟨g, ha⟩ | ⟨code2, tok, g, ha, hinv⟩ |
    ⟨e, code2, tok, g, ha, hs, hap⟩
  · exact Or.inl ⟨g, by rw [ha]⟩
  · exact Or.inl ⟨g, by rw [ha]; simp [hinv]⟩
  · exact Or.inr ⟨g, e, code2, tok, hs, hap, by rw [ha]⟩

/-! ## The driver: configuration phase -/

theorem insert_immediates_cons (tr : Traced) (v : Nat) (vs : List Nat) :
    insert_immediates tr (v :: vs) = insert_immediates (tr.insert_immediate v) vs := rfl

theorem insert_immediates_trace (tr : Traced) (imms : List Nat) :
    (insert_immediates tr imms).trace = tr.trace ++ imms.map Call.insert_immediate := by
  induction imms generalizing tr with
  | nil => simp [insert_immediates]
  | cons v vs ih =>
    rw [insert_immediates_cons, ih]
    simp [Traced.insert_immediate]

theorem insert_immediates_engine (tr : Traced) (imms : List Nat) :
    (insert_immediates tr imms).engine =
      { tr.engine with imm_pool := insert_all tr.engine.imm_pool imms } := by
  induction imms generalizing tr with
  | nil => simp [insert_immediates, insert_all]
  | cons v vs ih =>
    rw [insert_immediates_cons, ih]
    simp [Traced.insert_immediate, Transforms.insert_immediate, insert_all]

theorem insert_labels_cons (env : Env) (tr : Traced) (f : TUnit) (fs : List TUnit) :
    insert_labels env tr (f :: fs) =
      insert_labels env (tr.insert_label (read_entry_label env f)) fs := rfl

theorem insert_labels_trace (env : Env) (tr : Traced) (fxns : List TUnit) :
    (insert_labels env tr fxns).trace =
      tr.trace ++ (fxns.map (read_entry_label env)).map Call.insert_label := by
  induction fxns generalizing tr with
  | nil => simp [insert_labels]
  | cons f fs ih =>
    rw [insert_labels_cons, ih]
    simp [Traced.insert_label]

theorem insert_labels_engine (env : Env) (tr : Traced) (fxns : List TUnit) :
    (insert_labels env tr fxns).engine =
      { tr.engine with
        label_pool := insert_all tr.engine.label_pool (fxns.map (read_entry_label env)) } := by
  induction fxns generalizing tr with
  | nil => simp [insert_labels, insert_all]
  | cons f fs ih =>
    rw [insert_labels_cons, ih]
    simp [Traced.insert_label, Transforms.insert_label, insert_all]

/-- When every function has an entry label, the labels read are the entry labels. -/
theorem read_entry_labels_eq (env : Env) (fxns : List TUnit)
    (h : ∀ f ∈ fxns, ∃ l, entry_label f = some l) :
    fxns.map (read_entry_label env) = fxns.filterMap entry_label := by
  induction fxns with
  | nil => rfl
  | cons f fs ih =>
    obtain ⟨l, hl⟩ := h f (List.mem_cons_self f fs)
    rw [List.map_cons, List.filterMap_cons, hl,
      ih (fun g hg => h g (List.mem_cons_of_mem f hg))]
    simp [read_entry_label, hl]

/-- The calls of the configuration phase, in order. -/
theorem setup_calls_eq (env : Env) (args : Args) (time : Int) :
    (setup env args time).trace =
      [ Call.set_seed (seed_after_override args time),
        Call.set_opcode_pool args.cpu_flags_value args.nop_percent_value args.mem_read
          args.mem_write args.propose_call,
        Call.set_operand_pool (args.target_value env).code (preserve_regs_after_override env args) ]
      ++ args.immediates_value.map Call.insert_immediate
      ++ (args.functions_value.map (read_entry_label env)).map Call.insert_label := by
  unfold setup
  simp only []
  rw [insert_labels_trace, insert_immediates_trace]
  simp [Traced.set_seed, Traced.set_opcode_pool, Traced.set_operand_pool]

/-- The engine the configuration phase hands to `modify`. -/
theorem setup_engine_eq (env : Env) (args : Args) (time : Int) :
    (setup env args time).engine =
      { (((Transforms.init env).set_seed (seed_after_override args time)).set_opcode_pool env
            args.cpu_flags_value args.nop_percent_value args.mem_read args.mem_write
            args.propose_call).set_operand_pool env (args.target_value env).code
            (preserve_regs_after_override env args) with
        imm_pool := insert_all env.base_immediates args.immediates_value
        label_pool := insert_all [] (args.functions_value.map (read_entry_label env)) } := by
  unfold setup
  simp only []
  rw [insert_labels_engine, insert_immediates_engine]
  simp [Traced.set_seed, Traced.set_opcode_pool, Traced.set_operand_pool,
    Transforms.set_seed, Transforms.set_opcode_pool, Transforms.set_operand_pool,
    Transforms.init]

/-! ## The driver: transform and undo -/

/-- Lines 128-147 always complete: the `undo` of line 141 meets a pending token of the
same move family. What the run records is spelled out. -/
theorem transform_and_undo_eq (env : Env) (tr : Traced) (cfg : Cfg) (m : Move) :
    ∃ run, transform_and_undo env tr cfg m = Except.ok run ∧
      run.res = (tr.engine.modify env cfg m).1 ∧
      run.original = cfg.code ∧
      run.after_transform = (tr.engine.modify env cfg m).2.2.code ∧
      run.after_undo = cfg.code ∧
      run.engine_after_modify = (tr.engine.modify env cfg m).2.1 ∧
      (run.res = false → run.after_transform = cfg.code) ∧
      (run.res = true →
        (tr.engine.modify env cfg m).2.1.undo (tr.engine.modify env cfg m).2.2 m =
          some (run.engine_final, cfg)) ∧
      run.trace = tr.trace ++ Call.modify cfg m ::
        (if run.res then [Call.undo (tr.engine.modify env cfg m).2.2 m] else []) := by
  rcases modify_cases env tr.engine cfg m with ⟨g, hm⟩ | ⟨g, e, code, tok, _, ha, hm⟩
  · have h : transform_and_undo env tr cfg m =
        Except.ok ⟨false, cfg.code, cfg.code, cfg.code, { tr.engine with gen := g },
          { tr.engine with gen := g }, tr.trace ++ [Call.modify cfg m]⟩ := by
      simp [transform_and_undo, Traced.modify, hm]
    exact ⟨_, h, by simp [hm]⟩
  · have hinv := apply_invert cfg.code code e tok ha
    have h : transform_and_undo env tr cfg m =
        Except.ok ⟨true, cfg.code, code, cfg.code,
          { tr.engine with gen := g, token := some (m, tok) },
          { tr.engine with gen := g, token := none },
          tr.trace ++ [Call.modify cfg m, Call.undo { cfg with code := code } m]⟩ := by
      simp [transform_and_undo, Traced.modify, Traced.undo, Transforms.undo, hm, hinv]
    exact ⟨_, h, by simp [hm, Transforms.undo, hinv]⟩

/-- The calls of a whole run: those of the configuration phase, then `modify` and
possibly `undo`. -/
theorem main_calls (env : Env) (args : Args) (time : Int) :
    ∃ tail, calls_made (main env args time) = (setup env args time).trace ++ tail ∧
      ∀ c ∈ tail, c.is_config = false ∧ c.is_insertion = false := by
  obtain ⟨run, hrun, -, -, -, -, -, -, -, htrace⟩ :=
    transform_and_undo_eq env (setup env args time) ⟨(args.target_value env).code, [], []⟩
      args.move_value
  refine ⟨Call.modify ⟨(args.target_value env).code, [], []⟩ args.move_value ::
    (if run.res then [Call.undo ((setup env args time).engine.modify env
      ⟨(args.target_value env).code, [], []⟩ args.move_value).2.2 args.move_value] else []),
    ?_, ?_⟩
  · unfold main
    rw [hrun]
    simp only [calls_made]
    exact htrace
  · intro c hc
    by_cases hr : run.res = true
    · simp only [hr, if_true, List.mem_cons, List.mem_singleton, List.not_mem_nil,
        or_false] at hc
      rcases hc with rfl | rfl <;> simp [Call.is_config, Call.is_insertion]
    · simp only [hr, List.mem_cons] at hc
      rcases hc with rfl | hc
      · simp [Call.is_config, Call.is_insertion]
      · simp at hc

theorem minstd_seed_range (s : Nat) : 1 ≤ minstd_seed s ∧ minstd_seed s < 2147483647 := by
  unfold minstd_seed minstd_modulus
  split
  · omega
  · have := Nat.mod_lt s (show 0 < 2147483647 by omega)
    omega

theorem minstd_next_range (x : Nat) (h1 : 1 ≤ x) (h2 : x < 2147483647) :
    1 ≤ minstd_next x ∧ minstd_next x ≤ 2147483646 := by
  unfold minstd_next minstd_multiplier minstd_modulus
  have hlt := Nat.mod_lt (16807 * x) (show 0 < 2147483647 by omega)
  have hne : 16807 * x % 2147483647 ≠ 0 := by
    intro h
    have hd : 2147483647 ∣ 16807 * x := Nat.dvd_of_mod_eq_zero h
    have hc : Nat.Coprime 2147483647 16807 := by norm_num
    have hx := Nat.le_of_dvd (by omega) (hc.dvd_of_dvd_mul_left hd)
    omega
  omega

theorem time_seed_range (time : Int) : 1 ≤ time_seed time ∧ time_seed time ≤ 2147483646 := by
  obtain ⟨h1, h2⟩ := minstd_seed_range (to_result_type time)
  exact minstd_next_range _ h1 h2

/-- The three configuration calls head every run; no later call is one of them. -/
theorem main_calls_head (env : Env) (args : Args) (time : Int) :
    ∃ rest, calls_made (main env args time) =
      Call.set_seed (seed_after_override args time) ::
        Call.set_opcode_pool args.cpu_flags_value args.nop_percent_value args.mem_read
          args.mem_write args.propose_call ::
        Call.set_operand_pool (args.target_value env).code
          (preserve_regs_after_override env args) :: rest ∧
      ∀ c ∈ rest, c.is_config = false := by
  obtain ⟨tail, htail, hnc⟩ := main_calls env args time
  rw [setup_calls_eq] at htail
  have h : calls_made (main env args time) =
      Call.set_seed (seed_after_override args time) ::
        Call.set_opcode_pool args.cpu_flags_value args.nop_percent_value args.mem_read
          args.mem_write args.propose_call ::
        Call.set_operand_pool (args.target_value env).code
          (preserve_regs_after_override env args) ::
        (args.immediates_value.map Call.insert_immediate
          ++ (args.functions_value.map (read_entry_label env)).map Call.insert_label ++ tail) := by
    rw [htail]
    simp
  refine ⟨_, h, ?_⟩
  intro c hc
  simp only [List.mem_append, List.mem_map] at hc
  rcases hc with (⟨v, -, rfl⟩ | ⟨l, -, rfl⟩) | hc
  · rfl
  · rfl
  · exact (hnc c hc).1

/-! ## Pools: what a draw can return -/

theorem pick_mem {α : Type} (pool : List α) (g : Nat) (x : α) (h : pick pool g = some x) :
    x ∈ pool := by
  unfold pick at h
  exact List.get?_mem h

theorem draw_operand_from_pools (t : Transforms) (k : OperandKind) (g : Nat) (x : Operand)
    (h : draw_operand t k g = some x) : from_pools t x := by
  cases k <;> simp only [draw_operand, Option.map_eq_some'] at h <;>
    obtain ⟨y, hy, rfl⟩ := h <;> exact pick_mem _ _ _ hy

theorem draw_operands_from_pools (t : Transforms) (ks : List OperandKind) (g g2 : Nat)
    (os : List Operand) (h : draw_operands t ks g = (some os, g2)) :
    ∀ x ∈ os, from_pools t x := by
  induction ks generalizing g g2 os with
  | nil =>
    simp only [draw_operands, Prod.mk.injEq, Option.some.injEq] at h
    intro x hx
    rw [← h.1] at hx
    cases hx
  | cons k ks ih =>
    simp only [draw_operands] at h
    cases hd : draw_operand t k (minstd_next g) with
    | none => simp [hd] at h
    | some o =>
      simp only [hd] at h
      rcases hrest : draw_operands t ks (minstd_next g) with ⟨ors, g3⟩
      cases ors with
      | none => simp [hrest] at h
      | some rs =>
        simp only [hrest, Prod.mk.injEq, Option.some.injEq] at h
        intro x hx
        rw [← h.1] at hx
        rcases List.mem_cons.mp hx with heq | hmem
        · rw [heq]
          exact draw_operand_from_pools t k _ o hd
        · exact ih _ _ _ hrest x hmem

theorem draw_opcode_pool (t : Transforms) (g g2 : Nat) (opc : Opcode)
    (h : draw_opcode t g = (some opc, g2)) : opc = NOP ∨ opc ∈ t.opcode_pool := by
  unfold draw_opcode at h
  simp only [] at h
  split at h
  · simp only [Prod.mk.injEq, Option.some.injEq] at h
    exact Or.inl h.1.symm
  · simp only [Prod.mk.injEq] at h
    exact Or.inr (pick_mem _ _ _ h.1)

theorem draw_instruction_pool (t : Transforms) (g g2 : Nat) (i : Instruction)
    (h : draw_instruction t g = (some i, g2)) :
    (i.opcode = NOP ∨ i.opcode ∈ t.opcode_pool) ∧ ∀ x ∈ i.operands, from_pools t x := by
  unfold draw_instruction at h
  rcases hopc : draw_opcode t g with ⟨oo, g1⟩
  cases oo with
  | none => simp [hopc] at h
  | some opc =>
    simp only [hopc] at h
    rcases hrest : draw_operands t opc.signature g1 with ⟨ors, g3⟩
    cases ors with
    | none => simp [hrest] at h
    | some os =>
      simp only [hrest, Prod.mk.injEq, Option.some.injEq] at h
      rw [← h.1]
      exact ⟨draw_opcode_pool t g g1 opc hopc, draw_operands_from_pools t _ _ _ _ hrest⟩

/-- Whatever the Move Selector proposes comes from the pools. -/
theorem select_pool (env : Env) (t : Transforms) (code : Code) (m : Move) (e : Edit) (g : Nat)
    (h : select env t code m = (some e, g)) :
    (∀ o ∈ e.opcodes, o = NOP ∨ o ∈ t.opcode_pool) ∧ ∀ x ∈ e.operands, from_pools t x := by
  unfold select at h
  simp only [] at h
  cases hpos : pick (positions env code m) (minstd_next t.gen) with
  | none => simp [hpos] at h
  | some pos =>
    simp only [hpos] at h
    cases m with
    | instruction =>
      simp only [] at h
      rcases hd : draw_instruction t (minstd_next t.gen) with ⟨oi, g3⟩
      cases oi with
      | none => simp [hd] at h
      | some i =>
        simp only [hd, Prod.mk.injEq, Option.some.injEq] at h
        rw [← h.1]
        obtain ⟨h1, h2⟩ := draw_instruction_pool t _ _ i hd
        exact ⟨fun o ho => by
          simp only [Edit.opcodes, List.mem_singleton] at ho
          rw [ho]; exact h1, h2⟩
    | opcode =>
      simp only [] at h
      split at h
      · simp at h
      · split at h
        · simp at h
        · rename_i o ho
          simp only [Prod.mk.injEq, Option.some.injEq] at h
          rw [← h.1]
          refine ⟨fun o2 ho2 => ?_, fun x hx => (by cases hx)⟩
          simp only [Edit.opcodes, List.mem_singleton] at ho2
          rw [ho2]
          exact Or.inr (List.mem_of_mem_filter (pick_mem _ _ _ ho))
    | operand =>
      simp only [] at h
      split at h
      · simp at h
      · split at h
        · simp at h
        · rename_i old hold
          split at h
          · simp at h
          · rename_i o ho
            simp only [Prod.mk.injEq, Option.some.injEq] at h
            rw [← h.1]
            refine ⟨fun o2 ho2 => (by cases ho2), fun x hx => ?_⟩
            simp only [Edit.operands, List.mem_singleton] at hx
            rw [hx]
            exact draw_operand_from_pools t _ _ o ho
    | insert =>
      simp only [] at h
      rcases hd : draw_instruction t (minstd_next t.gen) with ⟨oi, g3⟩
      cases oi with
      | none => simp [hd] at h
      | some i =>
        simp only [hd, Prod.mk.injEq, Option.some.injEq] at h
        rw [← h.1]
        obtain ⟨h1, h2⟩ := draw_instruction_pool t _ _ i hd
        exact ⟨fun o ho => by
          simp only [Edit.opcodes, List.mem_singleton] at ho
          rw [ho]; exact h1, h2⟩
    | delete =>
      simp only [Prod.mk.injEq, Option.some.injEq] at h
      rw [← h.1]
      exact ⟨fun o ho => (by cases ho), fun x hx => (by cases hx)⟩
    | swap =>
      simp only [] at h
      split at h
      · simp at h
      · split at h
        · simp at h
        · simp only [Prod.mk.injEq, Option.some.injEq] at h
          rw [← h.1]
          exact ⟨fun o ho => (by cases ho), fun x hx => (by cases hx)⟩

theorem admissible_iff (flags : FlagSet) (mem_read mem_write propose_call : Bool) (o : Opcode) :
    admissible flags mem_read mem_write propose_call o = true ↔
      (∀ f ∈ o.required_flags, f ∈ flags) ∧ (o.reads_mem = true → mem_read = true) ∧
      (o.writes_mem = true → mem_write = true) ∧ (o.is_call = true → propose_call = true) := by
  unfold admissible
  cases o.reads_mem <;> cases o.writes_mem <;> cases o.is_call <;>
    cases mem_read <;> cases mem_write <;> cases propose_call <;> simp

/-! ## Pools: memory templates -/

theorem mem_mem_insert (x m : Mem) (pool : List Mem) (h : x ∈ mem_insert m pool) :
    x = m ∨ x ∈ pool := by
  unfold mem_insert at h
  split at h
  · exact Or.inr h
  · simp only [List.mem_append, List.mem_singleton] at h
    exact h.symm

theorem mem_operand_templates (x : Mem) (operands : List Operand) (acc : List Mem)
    (h : x ∈ operand_templates acc operands) : x ∈ acc ∨ Operand.mem x ∈ operands := by
  induction operands generalizing acc with
  | nil => exact Or.inl h
  | cons o os ih =>
    cases o with
    | mem m =>
      have h2 : x ∈ operand_templates (mem_insert m acc) os := h
      rcases ih _ h2 with hacc | hos
      · rcases mem_mem_insert x m acc hacc with rfl | h3
        · exact Or.inr (List.mem_cons_self _ _)
        · exact Or.inl h3
      · exact Or.inr (List.mem_cons_of_mem _ hos)
    | reg r =>
      have h2 : x ∈ operand_templates acc os := h
      exact (ih _ h2).imp id (List.mem_cons_of_mem _)
    | imm v =>
      have h2 : x ∈ operand_templates acc os := h
      exact (ih _ h2).imp id (List.mem_cons_of_mem _)
    | label l =>
      have h2 : x ∈ operand_templates acc os := h
      exact (ih _ h2).imp id (List.mem_cons_of_mem _)

theorem mem_code_templates (x : Mem) (code : Code) (acc : List Mem)
    (h : x ∈ code.foldl (fun acc i => operand_templates acc i.operands) acc) :
    x ∈ acc ∨ ∃ i ∈ code, Operand.mem x ∈ i.operands := by
  induction code generalizing acc with
  | nil => exact Or.inl h
  | cons i is ih =>
    rw [List.foldl_cons] at h
    rcases ih _ h with hacc | ⟨j, hj, hx⟩
    · rcases mem_operand_templates x i.operands acc hacc with h1 | h2
      · exact Or.inl h1
      · exact Or.inr ⟨i, List.mem_cons_self _ _, h2⟩
    · exact Or.inr ⟨j, List.mem_cons_of_mem _ hj, hx⟩

/-- Every template of the memory pool is a memory operand of the code it was built from. -/
theorem mem_templates_observed (x : Mem) (code : Code) (h : x ∈ mem_templates code) :
    ∃ i ∈ code, Operand.mem x ∈ i.operands := by
  rcases mem_code_templates x code [] h with h1 | h2
  · cases h1
  · exact h2

/-! ## Pools: insertion -/

theorem mem_set_insert (x v : Nat) (pool : List Nat) :
    x ∈ set_insert v pool ↔ x = v ∨ x ∈ pool := by
  unfold set_insert
  split
  · constructor
    · exact Or.inr
    · rintro (rfl | h)
      · assumption
      · exact h
  · simp only [List.mem_append, List.mem_singleton]
    exact or_comm

theorem set_insert_of_mem (v : Nat) (pool : List Nat) (h : v ∈ pool) :
    set_insert v pool = pool := by
  simp [set_insert, h]

theorem set_insert_idem (v : Nat) (pool : List Nat) :
    set_insert v (set_insert v pool) = set_insert v pool :=
  set_insert_of_mem v _ ((mem_set_insert v v pool).mpr (Or.inl rfl))

theorem insert_all_cons (pool : List Nat) (v : Nat) (vs : List Nat) :
    insert_all pool (v :: vs) = insert_all (set_insert v pool) vs := rfl

theorem insert_all_append (pool : List Nat) (a b : List Nat) :
    insert_all pool (a ++ b) = insert_all (insert_all pool a) b := by
  simp [insert_all, List.foldl_append]

theorem mem_insert_all (x : Nat) (pool vs : List Nat) :
    x ∈ insert_all pool vs ↔ x ∈ pool ∨ x ∈ vs := by
  induction vs generalizing pool with
  | nil => simp [insert_all]
  | cons v vs ih =>
    rw [insert_all_cons, ih, mem_set_insert, List.mem_cons]
    constructor
    · rintro ((h | h) | h)
      · exact Or.inr (Or.inl h)
      · exact Or.inl h
      · exact Or.inr (Or.inr h)
    · rintro (h | h | h)
      · exact Or.inl (Or.inr h)
      · exact Or.inl (Or.inl h)
      · exact Or.inr h

/-- Listing a value a second time leaves the pool as it is with one listing. -/
theorem insert_all_twice (pool a b c : List Nat) (v : Nat) :
    insert_all pool (a ++ v :: (b ++ v :: c)) = insert_all pool (a ++ v :: (b ++ c)) := by
  have h1 : a ++ v :: (b ++ v :: c) = (a ++ v :: b) ++ v :: c := by simp
  have h2 : a ++ v :: (b ++ c) = (a ++ v :: b) ++ c := by simp
  have hv : v ∈ insert_all pool (a ++ v :: b) :=
    (mem_insert_all v pool _).mpr (Or.inr (by simp))
  rw [h1, h2, insert_all_append pool (a ++ v :: b) (v :: c),
    insert_all_append pool (a ++ v :: b) c, insert_all_cons, set_insert_of_mem v _ hv]

theorem entry_label_iff (f : TUnit) (l : Label) :
    entry_label f = some l ↔
      ∃ opc ops body, f.code = (⟨opc, Operand.label l :: ops⟩ : Instruction) :: body := by
  unfold entry_label
  constructor
  · intro h
    split at h
    · exact Option.noConfusion h
    · rename_i i body hcode
      split at h
      · rename_i l2 ops hops
        simp only [Option.some.injEq] at h
        subst h
        refine ⟨i.opcode, ops, body, ?_⟩
        rw [hcode, ← hops]
      · exact Option.noConfusion h
  · rintro ⟨opc, ops, body, h⟩
    rw [h]

/-! ## The engine: what a decision depends on -/

/-- With an empty catalogue no substitution exists and `modify` fails. -/
theorem bare_return_without_catalogue :
    (main bare_env default_args 0).toOption.map Run.res = some false := by decide

/-- With register opcodes in the catalogue and every position eligible, `modify`
succeeds on the same command line. -/
theorem bare_return_with_sample_catalogue :
    (main sample_env default_args 0).toOption.map Run.res = some true := by decide

/-- A run whose auxiliary function has no code still goes on to `modify` and `undo`:
three configuration calls, one `insert_label`, `modify`, `undo`. -/
theorem empty_function_run_reaches_modify :
    (calls_made (main sample_env empty_fxn_args 0)).length = 6 := by decide

/-! ## The claims -/

/-- C1 (round trip). Whatever the engine state (so whatever the seed and the pools),
the graph and the move family: when `modify` returns success, the `undo` that follows
with the same move family succeeds and gives back the graph as it was before `modify`;
lines 128-147 of the driver then complete and show, under "After Undo:", the same
instruction sequence and the same rendering as under "Original Code:". -/
theorem modify_undo_round_trip (env : Env) (t : Transforms) (cfg : Cfg) (m : Move)
    (hres : (t.modify env cfg m).1 = true) :
    (∃ t2, (t.modify env cfg m).2.1.undo (t.modify env cfg m).2.2 m = some (t2, cfg)) ∧
    ∀ calls, ∃ run, transform_and_undo env ⟨t, calls⟩ cfg m = Except.ok run ∧
      run.res = true ∧ run.original = cfg.code ∧ run.after_undo = run.original ∧
      (output env run).get? 5 = (output env run).get? 1 := by
  constructor
  · obtain ⟨run, -, hr, -, -, -, -, -, hundo, -⟩ := transform_and_undo_eq env ⟨t, []⟩ cfg m
    exact ⟨run.engine_final, hundo (hr.trans hres)⟩
  · intro calls
    obtain ⟨run, hrun, hr, ho, -, hu, -, -, -, -⟩ := transform_and_undo_eq env ⟨t, calls⟩ cfg m
    refine ⟨run, hrun, hr.trans hres, ho, hu.trans ho.symm, ?_⟩
    simp [output, hu, ho]

theorem modify_undo_round_trip_witness :
    ((Transforms.init sample_env).modify sample_env ⟨sample_code, [], []⟩ Move.delete).1 = true ∧
    ((∃ t2, ((Transforms.init sample_env).modify sample_env ⟨sample_code, [], []⟩
        Move.delete).2.1.undo ((Transforms.init sample_env).modify sample_env
          ⟨sample_code, [], []⟩ Move.delete).2.2 Move.delete = some (t2, ⟨sample_code, [], []⟩)) ∧
    ∀ calls, ∃ run, transform_and_undo sample_env ⟨Transforms.init sample_env, calls⟩
        ⟨sample_code, [], []⟩ Move.delete = Except.ok run ∧
      run.res = true ∧ run.original = sample_code ∧ run.after_undo = run.original ∧
      (output sample_env run).get? 5 = (output sample_env run).get? 1) :=
  ⟨by decide,
    modify_undo_round_trip sample_env (Transforms.init sample_env) ⟨sample_code, [], []⟩
      Move.delete (by decide)⟩

/-- C3 (the driver respects the precondition of `undo`). Every run completes; the calls
before `modify` are configuration calls and pool insertions only; then comes exactly
one `modify`, followed, if and only if that `modify` returned success, by exactly one
`undo` with the same move family on the graph `modify` left; that `undo` finds its
pending token (it returns the graph as it was), and on failure no `undo` is made. -/
theorem driver_respects_undo_precondition (env : Env) (args : Args) (time : Int) :
    ∃ run, main env args time = Except.ok run ∧
      (∀ c ∈ (setup env args time).trace, c.is_config = true ∨ c.is_insertion = true) ∧
      run.res =
        ((setup env args time).engine.modify env ⟨(args.target_value env).code, [], []⟩
          args.move_value).1 ∧
      run.trace = (setup env args time).trace ++
        Call.modify ⟨(args.target_value env).code, [], []⟩ args.move_value ::
          (if run.res then
            [Call.undo ((setup env args time).engine.modify env
              ⟨(args.target_value env).code, [], []⟩ args.move_value).2.2 args.move_value]
          else []) ∧
      (run.res = true →
        ((setup env args time).engine.modify env ⟨(args.target_value env).code, [], []⟩
            args.move_value).2.1.undo
          ((setup env args time).engine.modify env ⟨(args.target_value env).code, [], []⟩
            args.move_value).2.2
          args.move_value
          = some (run.engine_final, ⟨(args.target_value env).code, [], []⟩)) := by
  have hmem : ∀ c ∈ (setup env args time).trace,
      c.is_config = true ∨ c.is_insertion = true := by
    intro c hc
    rw [setup_calls_eq] at hc
    simp only [List.mem_append, List.mem_cons, List.mem_map, List.not_mem_nil, or_false] at hc
    rcases hc with ((rfl | rfl | rfl) | ⟨v, -, rfl⟩) | ⟨l, -, rfl⟩ <;>
      simp [Call.is_config, Call.is_insertion]
  obtain ⟨run, hrun, hr, -, -, -, -, -, hundo, htrace⟩ :=
    transform_and_undo_eq env (setup env args time) ⟨(args.target_value env).code, [], []⟩
      args.move_value
  exact ⟨run, hrun, hmem, hr, htrace, hundo⟩

/-- C4 (seed handling by the caller). On every run the first call on the engine is
`set_seed`, it is the only `set_seed` call, and its argument is the seed option itself
when that is nonzero, and otherwise (option 0, the default) the first output of a
`default_random_engine` seeded with the time count. -/
theorem seed_passed_to_set_seed (env : Env) (args : Args) (time : Int) :
    ∃ rest, calls_made (main env args time) =
      Call.set_seed
        (if args.seed.getD 0 = 0 then minstd_next (minstd_seed (to_result_type time))
          else args.seed.getD 0) :: rest ∧
      ∀ c ∈ rest, ∀ s, c ≠ Call.set_seed s := by
  obtain ⟨rest, h, hnc⟩ := main_calls_head env args time
  refine ⟨_, h, ?_⟩
  intro c hc s hcs
  subst hcs
  simp only [List.mem_cons] at hc
  rcases hc with h | h | h
  · exact Call.noConfusion h
  · exact Call.noConfusion h
  · have := hnc _ h
    simp [Call.is_config] at this

/-- C7 (preserved-register set given to the operand pool). On every run the third call
on the engine is the only `set_operand_pool` call; its code argument is the target's
code and its register-set argument is the empty set when `callee_save` is given,
whatever `preserve_regs` value is supplied, and otherwise the supplied `preserve_regs`
value, or the Linux callee-saved set when none is supplied. -/
theorem preserve_regs_passed_to_set_operand_pool (env : Env) (args : Args) (time : Int) :
    ∃ c1 c2 rest, calls_made (main env args time) =
      c1 :: c2 ::
        Call.set_operand_pool (args.target.getD ⟨"anon", [⟨env.ret, []⟩]⟩).code
          (if args.callee_save = true then []
            else match args.preserve_regs with
              | some regs => regs
              | none => env.linux_callee_save) :: rest ∧
      (∀ code regs, c1 ≠ Call.set_operand_pool code regs) ∧
      (∀ code regs, c2 ≠ Call.set_operand_pool code regs) ∧
      ∀ c ∈ rest, ∀ code regs, c ≠ Call.set_operand_pool code regs := by
  obtain ⟨rest, h, hnc⟩ := main_calls_head env args time
  have hp : preserve_regs_after_override env args =
      (if args.callee_save = true then []
        else match args.preserve_regs with
          | some regs => regs
          | none => env.linux_callee_save) := by
    unfold preserve_regs_after_override Args.preserve_regs_value
    cases args.preserve_regs <;> rfl
  rw [hp] at h
  refine ⟨_, _, rest, h, ?_, ?_, ?_⟩
  · intro code regs h
    exact Call.noConfusion h
  · intro code regs h
    exact Call.noConfusion h
  · intro c hc code regs hcs
    subst hcs
    have := hnc _ hc
    simp [Call.is_config] at this

/-- C10 (the seed handed to the engine is never 0). On every run the only `set_seed`
call is the first call and its argument is nonzero: a nonzero seed option is passed
unchanged, and for option 0 the replacement, the first output of `minstd_rand0` seeded
with the time count, lies in [1, 2147483646] whatever the time count; on a time count
`t` in the unsigned 64-bit range it is `16807 * x0 mod 2147483647` with
`x0 = t mod 2147483647`, or 1 when that is 0. -/
theorem seed_passed_is_never_zero (env : Env) (args : Args) (time : Int) :
    (∃ s rest, calls_made (main env args time) = Call.set_seed s :: rest ∧ s ≠ 0 ∧
      (args.seed.getD 0 ≠ 0 → s = args.seed.getD 0) ∧
      (args.seed.getD 0 = 0 → s = time_seed time ∧ 1 ≤ s ∧ s ≤ 2147483646) ∧
      ∀ c ∈ rest, ∀ s2, c ≠ Call.set_seed s2) ∧
    ∀ t : Nat, t < 2 ^ 64 →
      time_seed (t : Int) =
        16807 * (if t % 2147483647 = 0 then 1 else t % 2147483647) % 2147483647 := by
  constructor
  · obtain ⟨rest, h, hnc⟩ := main_calls_head env args time
    refine ⟨seed_after_override args time, _, h, ?_, ?_, ?_, ?_⟩
    · unfold seed_after_override Args.seed_value
      split
      · have := time_seed_range time
        omega
      · assumption
    · intro h
      simp [seed_after_override, Args.seed_value, h]
    · intro h
      have := time_seed_range time
      simp [seed_after_override, Args.seed_value, h, this.1, this.2]
    · intro c hc s hcs
      subst hcs
      simp only [List.mem_cons] at hc
      rcases hc with h | h | h
      · exact Call.noConfusion h
      · exact Call.noConfusion h
      · have := hnc _ h
        simp [Call.is_config] at this
  · intro t ht
    have hconv : to_result_type (t : Int) = t := by
      unfold to_result_type
      have h0 : (0 : Int) ≤ (t : Int) := Int.natCast_nonneg t
      have h1 : (t : Int) < 2 ^ 64 := by exact_mod_cast ht
      rw [Int.emod_eq_of_lt h0 h1]
      simp
    simp only [time_seed, hconv, minstd_next, minstd_seed, minstd_multiplier, minstd_modulus]

/-- C6 (pool respect), the claim as stated fails. The driver is run with memory reads
allowed, the stack pointer (register 4) preserved and the `operand` move, on a target of
two loads through the stack pointer. The engine as the driver configures it succeeds on
the target's graph and puts, in operand slot 0 of instruction 0, a memory operand that
was not there and that names register 4. -/
theorem memory_operand_names_preserved_register :
    (stack_args.move_value = Move.operand ∧
      (stack_args.target_value sample_env).code = stack_code ∧
      preserve_regs_after_override sample_env stack_args = [4]) ∧
    ((setup sample_env stack_args 0).engine.modify sample_env ⟨stack_code, [], []⟩
      Move.operand).1 = true ∧
    ¬ (∀ pos k old new x, stack_code.get? pos = some old →
        ((setup sample_env stack_args 0).engine.modify sample_env ⟨stack_code, [], []⟩
          Move.operand).2.2.code.get? pos = some new →
        new.operands.get? k = some x → old.operands.get? k ≠ some x →
        ∀ r ∈ [4], x.names r = false) := by
  refine ⟨by decide, by decide, ?_⟩
  intro h
  have h4 := h 0 0 ⟨sample_load, [Operand.mem ⟨some 4, none, 8⟩, Operand.reg 0]⟩
    ⟨sample_load, [Operand.mem ⟨some 4, none, 16⟩, Operand.reg 0]⟩
    (Operand.mem ⟨some 4, none, 16⟩) (by decide) (by decide) (by decide) (by decide) 4
    (by decide)
  revert h4
  decide

/-- C6 (pool respect), amended. Let the engine's opcode pool be the one built by
`set_opcode_pool(flags, nop_percent, mem_read, mem_write, propose_call)` and its
register and memory pools those built by `set_operand_pool(code, preserve_regs)`. When
`modify` returns success, the graph it leaves is the given one with one instruction
replaced, one inserted, one erased or two swapped. In a replaced instruction the opcode
is the old one or a fresh one, and each operand is the old one of its slot or a fresh
one; an inserted instruction is fresh throughout. Every fresh opcode requires only
flags in `flags`, reads memory only if `mem_read`, writes memory only if `mem_write`, is
a call only if `propose_call`. Every fresh operand is a register outside
`preserve_regs`, or a memory operand occurring in `code`, or an immediate or a label. -/
theorem modify_respects_pools (env : Env) (t t0 t1 : Transforms) (flags : FlagSet)
    (nop_percent : Nat) (mem_read mem_write propose_call : Bool) (code0 : Code)
    (preserve_regs : RegSet) (cfg : Cfg) (m : Move)
    (hop : t.opcode_pool =
      (t0.set_opcode_pool env flags nop_percent mem_read mem_write propose_call).opcode_pool)
    (hreg : t.reg_pool = (t1.set_operand_pool env code0 preserve_regs).reg_pool)
    (hmem : t.mem_pool = (t1.set_operand_pool env code0 preserve_regs).mem_pool)
    (hres : (t.modify env cfg m).1 = true) :
    ∃ (opcodes : List Opcode) (operands : List Operand),
      ((∃ pos old new, cfg.code.get? pos = some old ∧
          (t.modify env cfg m).2.2.code = cfg.code.set pos new ∧
          (new.opcode = old.opcode ∨ new.opcode ∈ opcodes) ∧
          ∀ k x, new.operands.get? k = some x → old.operands.get? k = some x ∨ x ∈ operands) ∨
        (∃ pos new, pos ≤ cfg.code.length ∧
          (t.modify env cfg m).2.2.code = cfg.code.insertIdx pos new ∧
          new.opcode ∈ opcodes ∧ ∀ x ∈ new.operands, x ∈ operands) ∨
        (∃ pos, (t.modify env cfg m).2.2.code = cfg.code.eraseIdx pos) ∨
        (∃ i j a b, cfg.code.get? i = some a ∧ cfg.code.get? j = some b ∧
          (t.modify env cfg m).2.2.code = (cfg.code.set i b).set j a)) ∧
      (∀ o ∈ opcodes, (∀ f ∈ o.required_flags, f ∈ flags) ∧
        (o.reads_mem = true → mem_read = true) ∧ (o.writes_mem = true → mem_write = true) ∧
        (o.is_call = true → propose_call = true)) ∧
      ∀ x ∈ operands, (∃ r, x = Operand.reg r ∧ r ∉ preserve_regs) ∨
        (∃ p, x = Operand.mem p ∧ ∃ i ∈ code0, Operand.mem p ∈ i.operands) ∨
        (∃ v, x = Operand.imm v) ∨ (∃ l, x = Operand.label l) := by
  rcases modify_cases env t cfg m with ⟨g, hm⟩ | ⟨g, e, code, tok, hs, ha, hm⟩
  · rw [hm] at hres
    exact Bool.noConfusion hres
  · obtain ⟨hopc, hops⟩ := select_pool env t cfg.code m e g hs
    have hcode : (t.modify env cfg m).2.2.code = code := by rw [hm]
    refine ⟨e.opcodes, e.operands, ?_, ?_, ?_⟩
    · rw [hcode]
      cases e with
      | replace_instr pos i =>
        simp only [apply_edit, Option.map_eq_some', Prod.mk.injEq] at ha
        obtain ⟨old, hold, hc, -⟩ := ha
        left
        refine ⟨pos, old, i, hold, hc.symm, Or.inr (by simp [Edit.opcodes]), ?_⟩
        intro k x hx
        exact Or.inr (List.get?_mem hx)
      | replace_opcode pos o =>
        simp only [apply_edit, Option.map_eq_some', Prod.mk.injEq] at ha
        obtain ⟨old, hold, hc, -⟩ := ha
        left
        exact ⟨pos, old, ⟨o, old.operands⟩, hold, hc.symm, Or.inr (by simp [Edit.opcodes]),
          fun k x hx => Or.inl hx⟩
      | replace_operand pos idx y =>
        simp only [apply_edit, Option.map_eq_some', Prod.mk.injEq] at ha
        obtain ⟨old, hold, hc, -⟩ := ha
        left
        refine ⟨pos, old, ⟨old.opcode, old.operands.set idx y⟩, hold, hc.symm, Or.inl rfl, ?_⟩
        intro k x hx
        simp only [List.get?_eq_getElem?, List.getElem?_set] at hx ⊢
        by_cases hk : idx = k
        · simp only [hk, if_true] at hx
          split at hx
          · right
            simp only [Option.some.injEq] at hx
            simp [Edit.operands, hx]
          · exact Option.noConfusion hx
        · simp only [hk, if_false] at hx
          exact Or.inl hx
      | insert pos i =>
        simp only [apply_edit] at ha
        split at ha
        · rename_i hle
          simp only [Option.some.injEq, Prod.mk.injEq] at ha
          right; left
          exact ⟨pos, i, hle, ha.1.symm, by simp [Edit.opcodes], fun x hx => hx⟩
        · exact Option.noConfusion ha
      | delete pos =>
        simp only [apply_edit, Option.map_eq_some', Prod.mk.injEq] at ha
        obtain ⟨old, -, hc, -⟩ := ha
        right; right; left
        exact ⟨pos, hc.symm⟩
      | swap i j =>
        simp only [apply_edit] at ha
        split at ha
        · rename_i a b hga hgb
          simp only [Option.some.injEq, Prod.mk.injEq] at ha
          right; right; right
          exact ⟨i, j, a, b, hga, hgb, ha.1.symm⟩
        · exact Option.noConfusion ha
    · intro o ho
      rcases hopc o ho with hnop | hpool
      · subst hnop
        simp [NOP]
      · rw [hop] at hpool
        simp only [Transforms.set_opcode_pool, List.mem_filter] at hpool
        exact (admissible_iff flags mem_read mem_write propose_call o).mp hpool.2
    · intro x hx
      have hfrom := hops x hx
      cases x with
      | reg r =>
        left
        simp only [from_pools] at hfrom
        rw [hreg] at hfrom
        simp only [Transforms.set_operand_pool, List.mem_filter, decide_eq_true_eq] at hfrom
        exact ⟨r, rfl, hfrom.2⟩
      | mem p =>
        right; left
        simp only [from_pools] at hfrom
        rw [hmem] at hfrom
        simp only [Transforms.set_operand_pool] at hfrom
        exact ⟨p, rfl, mem_templates_observed p code0 hfrom⟩
      | imm v => exact Or.inr (Or.inr (Or.inl ⟨v, rfl⟩))
      | label l => exact Or.inr (Or.inr (Or.inr ⟨l, rfl⟩))

theorem modify_respects_pools_witness :
    ((stack_engine 2).modify sample_env ⟨stack_code, [], []⟩ Move.operand).1 = true ∧
    ∃ (opcodes : List Opcode) (operands : List Operand),
      ((∃ pos old new, stack_code.get? pos = some old ∧
          ((stack_engine 2).modify sample_env ⟨stack_code, [], []⟩ Move.operand).2.2.code
            = stack_code.set pos new ∧
          (new.opcode = old.opcode ∨ new.opcode ∈ opcodes) ∧
          ∀ k x, new.operands.get? k = some x → old.operands.get? k = some x ∨ x ∈ operands) ∨
        (∃ pos new, pos ≤ stack_code.length ∧
          ((stack_engine 2).modify sample_env ⟨stack_code, [], []⟩ Move.operand).2.2.code
            = stack_code.insertIdx pos new ∧
          new.opcode ∈ opcodes ∧ ∀ x ∈ new.operands, x ∈ operands) ∨
        (∃ pos,
          ((stack_engine 2).modify sample_env ⟨stack_code, [], []⟩ Move.operand).2.2.code
            = stack_code.eraseIdx pos) ∨
        (∃ i j a b, stack_code.get? i = some a ∧ stack_code.get? j = some b ∧
          ((stack_engine 2).modify sample_env ⟨stack_code, [], []⟩ Move.operand).2.2.code
            = (stack_code.set i b).set j a)) ∧
      (∀ o ∈ opcodes, (∀ f ∈ o.required_flags, f ∈ ([] : FlagSet)) ∧
        (o.reads_mem = true → true = true) ∧ (o.writes_mem = true → false = true) ∧
        (o.is_call = true → false = true)) ∧
      ∀ x ∈ operands, (∃ r, x = Operand.reg r ∧ r ∉ [4]) ∨
        (∃ p, x = Operand.mem p ∧ ∃ i ∈ stack_code, Operand.mem p ∈ i.operands) ∨
        (∃ v, x = Operand.imm v) ∨ (∃ l, x = Operand.label l) :=
  ⟨by decide,
    modify_respects_pools sample_env (stack_engine 2) (Transforms.init sample_env)
      (Transforms.init sample_env) [] 0 true false false stack_code [4]
      ⟨stack_code, [], []⟩ Move.operand rfl rfl rfl (by decide)⟩

/-- C8 (pool insertion). When every auxiliary function has non-empty code whose first
instruction carries a label as operand 0, the configuration phase completes; it makes one
`insert_immediate` call per listed immediate and one `insert_label` call per function,
with that entry label; afterwards the immediate pool contains every listed immediate (it
is the base set with the listed values inserted) and the label pool holds exactly the
entry labels, nothing of the bodies (it is a function of the entry labels alone).
Listing an immediate, or a function with the same entry label, a second time leaves the
engine as with one listing, and inserting a value twice in a row equals inserting it once. -/
theorem pool_insertion_is_set_insertion (env : Env) (args : Args) (time : Int)
    (hfx : ∀ f ∈ args.functions.getD [], ∃ l opc ops body,
      f.code = (⟨opc, Operand.label l :: ops⟩ : Instruction) :: body) :
    ∃ tr, setup env args time = tr ∧
      (∃ config, tr.trace = config ++ (args.immediates.getD []).map Call.insert_immediate
        ++ ((args.functions.getD []).filterMap entry_label).map Call.insert_label ∧
        ∀ c ∈ config, c.is_insertion = false) ∧
      (∀ v ∈ args.immediates.getD [], v ∈ tr.engine.imm_pool) ∧
      (∀ l, l ∈ tr.engine.label_pool ↔ ∃ f ∈ args.functions.getD [], ∃ opc ops body,
        f.code = (⟨opc, Operand.label l :: ops⟩ : Instruction) :: body) ∧
      tr.engine.imm_pool = insert_all env.base_immediates (args.immediates.getD []) ∧
      tr.engine.label_pool = insert_all [] ((args.functions.getD []).filterMap entry_label) ∧
      (∀ a b c v, args.immediates = some (a ++ v :: (b ++ v :: c)) →
        (setup env { args with immediates := some (a ++ v :: (b ++ c)) } time).engine
          = tr.engine) ∧
      (∀ a b c f g, args.functions = some (a ++ f :: (b ++ g :: c)) →
        entry_label g = entry_label f →
        (setup env { args with functions := some (a ++ f :: (b ++ c)) } time).engine
          = tr.engine) ∧
      (∀ (t : Transforms) (v : Nat),
        (t.insert_immediate v).insert_immediate v = t.insert_immediate v) ∧
      (∀ (t : Transforms) (l : Label), (t.insert_label l).insert_label l = t.insert_label l) := by
  have hall : ∀ f ∈ args.functions_value, ∃ l, entry_label f = some l := by
    intro f hf
    obtain ⟨l, opc, ops, body, h⟩ := hfx f hf
    exact ⟨l, (entry_label_iff f l).mpr ⟨opc, ops, body, h⟩⟩
  have hread : args.functions_value.map (read_entry_label env) =
      (args.functions.getD []).filterMap entry_label :=
    read_entry_labels_eq env _ hall
  have he := setup_engine_eq env args time
  rw [hread] at he
  have himm : (setup env args time).engine.imm_pool =
      insert_all env.base_immediates (args.immediates.getD []) := by
    rw [he]; rfl
  have hlab : (setup env args time).engine.label_pool =
      insert_all [] ((args.functions.getD []).filterMap entry_label) := by
    rw [he]
  refine ⟨setup env args time, rfl, ?_, ?_, ?_, himm, hlab, ?_, ?_, ?_, ?_⟩
  · have hc := setup_calls_eq env args time
    rw [hread] at hc
    refine ⟨_, hc, ?_⟩
    intro c hc2
    simp only [List.mem_cons, List.not_mem_nil, or_false] at hc2
    rcases hc2 with rfl | rfl | rfl <;> rfl
  · intro v hv
    rw [himm]
    exact (mem_insert_all v _ _).mpr (Or.inr hv)
  · intro l
    rw [hlab, mem_insert_all, List.mem_filterMap]
    constructor
    · rintro (h | ⟨f, hf, hl⟩)
      · cases h
      · exact ⟨f, hf, (entry_label_iff f l).mp hl⟩
    · rintro ⟨f, hf, h⟩
      exact Or.inr ⟨f, hf, (entry_label_iff f l).mpr h⟩
  · intro a b c v hv
    have he2 := setup_engine_eq env { args with immediates := some (a ++ v :: (b ++ c)) } time
    have h1 : args.immediates_value = a ++ v :: (b ++ v :: c) := by
      simp [Args.immediates_value, hv]
    rw [he2, setup_engine_eq env args time, h1]
    simp only [Args.immediates_value, Option.getD_some]
    rw [insert_all_twice]
    rfl
  · intro a b c f g hv hg
    obtain ⟨lf, hlf⟩ := hall f (by simp [Args.functions_value, hv])
    have hrf : read_entry_label env f = lf := by simp [read_entry_label, hlf]
    have hrg : read_entry_label env g = lf := by simp [read_entry_label, hg, hlf]
    have he2 := setup_engine_eq env { args with functions := some (a ++ f :: (b ++ c)) } time
    have h1 : args.functions_value = a ++ f :: (b ++ g :: c) := by
      simp [Args.functions_value, hv]
    rw [he2, setup_engine_eq env args time, h1]
    simp only [Args.functions_value, Option.getD_some, List.map_append, List.map_cons,
      hrf, hrg]
    rw [insert_all_twice]
    rfl
  · intro t v
    simp [Transforms.insert_immediate, set_insert_idem]
  · intro t l
    simp [Transforms.insert_label, set_insert_idem]

theorem pool_insertion_is_set_insertion_witness :
    (∀ f ∈ pool_args.functions.getD [], ∃ l opc ops body,
      f.code = (⟨opc, Operand.label l :: ops⟩ : Instruction) :: body) ∧
    ∃ tr, setup sample_env pool_args 0 = tr ∧
      tr.engine.imm_pool = [0, 1, 5, 7] ∧ tr.engine.label_pool = [11, 12] :=
  have hfx : ∀ f ∈ pool_args.functions.getD [], ∃ l opc ops body,
      f.code = (⟨opc, Operand.label l :: ops⟩ : Instruction) :: body := by
    intro f hf
    simp only [pool_args, Option.getD_some, List.mem_cons, List.not_mem_nil, or_false] at hf
    rcases hf with rfl | rfl | rfl <;> exact ⟨_, _, _, _, rfl⟩
  ⟨hfx,
    match pool_insertion_is_set_insertion sample_env pool_args 0 hfx with
    | ⟨tr, hs, _, _, _, himm, hlab, _⟩ => ⟨tr, hs, himm.trans (by decide), hlab.trans (by decide)⟩⟩

end Stoke
